import Mathlib

/-!
Verification development for the animation-retargeting core of
`src/client/src/components/AvatarViewer.tsx`.

The embedding models the pure retargeting logic of the source file:

* quaternions: three.js `Quaternion` objects with rational components
  (exact arithmetic stands in for IEEE floats); `multiplyQuaternions`
  is the Hamilton product exactly as written in three.js;
* `Math.sin`, `Math.cos` and `Math.PI` (reached through
  `THREE.Quaternion.setFromAxisAngle` and `THREE.MathUtils.degToRad`)
  are opaque: every definition that the source feeds through them takes
  the functions `msin mcos : Rat -> Rat` and the constant `piQ : Rat`
  as explicit parameters;
* a `THREE.Bone` is its name plus its local `quaternion`; a skeleton is
  the ordered `bones` list; mutation of `bone.quaternion` becomes
  rewriting the first bone of that name in the list;
* `THREE.KeyframeTrack` is a name, a times list and a flat values list
  (stride 4 for quaternion tracks); `THREE.AnimationClip` is a name, a
  duration and a track list;
* JS `Record`/`Map` objects become association lists looked up by first
  key match (assignments in the source never rebind a key to a new
  value, so first-match lookup agrees with JS last-write semantics);
* `console.warn`/`console.log` diagnostics become explicit warning
  lists where a claim talks about them.
-/

/-- Quaternion with rational components, mirroring `THREE.Quaternion`
(fields `_x _y _z _w`). -/
structure Quat where
  x : Rat
  y : Rat
  z : Rat
  w : Rat
deriving DecidableEq

/-- Hamilton product, exactly the component formulas of
`THREE.Quaternion.multiplyQuaternions(a, b)`. -/
def qmul (a b : Quat) : Quat :=
  ⟨a.x * b.w + a.w * b.x + a.y * b.z - a.z * b.y,
   a.y * b.w + a.w * b.y + a.z * b.x - a.x * b.z,
   a.z * b.w + a.w * b.z + a.x * b.y - a.y * b.x,
   a.w * b.w - a.x * b.x - a.y * b.y - a.z * b.z⟩

/-- `new THREE.Quaternion()`: the identity quaternion (0,0,0,1). -/
def qidentity : Quat := ⟨0, 0, 0, 1⟩

/-- `THREE.Quaternion.setFromAxisAngle(axis, angle)`:
`halfAngle = angle / 2`, `s = sin(halfAngle)`, components
`(axis.x * s, axis.y * s, axis.z * s, cos(halfAngle))`.  `msin` and
`mcos` model the opaque float library functions `Math.sin`/`Math.cos`. -/
def setFromAxisAngle (msin mcos : Rat → Rat) (ax ay az angle : Rat) : Quat :=
  ⟨ax * msin (angle / 2), ay * msin (angle / 2), az * msin (angle / 2), mcos (angle / 2)⟩

/-- A `THREE.Bone` as the retargeting code observes it: its `name` and
its local rotation `quaternion`. -/
structure Bone where
  name : String
  quaternion : Quat
deriving DecidableEq

/-- A `THREE.KeyframeTrack`: composite identifier `name`
(`"<bone>.<property>"`), keyframe `times`, and flat `values` buffer. -/
structure Track where
  name : String
  times : List Rat
  values : List Rat
deriving DecidableEq

/-- A `THREE.AnimationClip`: `name`, `duration` (seconds), `tracks`. -/
structure Clip where
  name : String
  duration : Rat
  tracks : List Track
deriving DecidableEq

/-- First-match lookup in an association list; models indexing a JS
`Record<string, T>` object (`m[key]`, `undefined` becomes `none`). -/
def alist {α : Type} : List (String × α) → String → Option α
  | [], _ => none
  | (k, v) :: rest, s => if k = s then some v else alist rest s

/-- The characters of the literal `"mixamorig"` from the regex
`/^mixamorig:?/` in `buildBoneNameMap`. -/
def mixamoChars : List Char := ['m', 'i', 'x', 'a', 'm', 'o', 'r', 'i', 'g']

/-- Boolean list-prefix test (`p` is an initial segment of `s`). -/
def isPre : List Char → List Char → Bool
  | [], _ => true
  | _ :: _, [] => false
  | p :: ps, c :: cs => p = c && isPre ps cs

/-- `boneName.replace(/^mixamorig:?/, '')` from `buildBoneNameMap`
line 78: remove one leading occurrence of `mixamorig` with an optional
following `:` (the regex quantifier is greedy, so the colon variant is
preferred); a string not starting with the prefix is unchanged. -/
def stripMixamo (s : String) : String :=
  if isPre (mixamoChars ++ [':']) s.data then ⟨s.data.drop 10⟩
  else if isPre mixamoChars s.data then ⟨s.data.drop 9⟩
  else s

/-- Split a composite track identifier at its last `'.'`:
`some (before, after)` when a dot exists, `none` otherwise.  Models
`name.lastIndexOf('.')` followed by the two `substring` calls in
`retargetAnimationClip` (and the same idiom in `buildBoneNameMap`). -/
def splitLastDotAux : List Char → Option (List Char × List Char)
  | [] => none
  | c :: cs =>
    match splitLastDotAux cs with
    | some (b, p) => some (c :: b, p)
    | none => if c = '.' then some ([], cs) else none

/-- String-level wrapper of `splitLastDotAux`. -/
def splitLastDot (s : String) : Option (String × String) :=
  match splitLastDotAux s.data with
  | some (b, p) => some (⟨b⟩, ⟨p⟩)
  | none => none

/-- Bone names found in a clip's track identifiers, in first-seen
order without duplicates: models the `Set<string>` insertion loop of
`buildBoneNameMap` lines 65-72 (`lastIndexOf('.')`, `substring(0, dotIndex)`,
`Array.from`). -/
def trackBoneNames (clip : Clip) : List String :=
  clip.tracks.foldl
    (fun acc tr =>
      match splitLastDot tr.name with
      | some (b, _) => if b ∈ acc then acc else acc ++ [b]
      | none => acc)
    []

/-- The source bone names `buildBoneNameMap` iterates over: the source
skeleton's bone names when a skeleton was found, else the bone names of
the animation clip's tracks, else the empty list (lines 57-74). -/
def sourceNamesOf (sourceSkeleton : Option (List String)) (clip : Option Clip) : List String :=
  match sourceSkeleton with
  | some ns => ns
  | none =>
    match clip with
    | some c => trackBoneNames c
    | none => []

/-- The mapping loop of `buildBoneNameMap` lines 76-86: for each source
bone name in order, strip the Mixamo prefix; record
`map[boneName] = mappedName` exactly when the stripped name is a member
of the target bone-name set. -/
def buildBoneNameMapGo (targetBoneNames : List String) : List String → List (String × String)
  | [] => []
  | s :: rest =>
    if stripMixamo s ∈ targetBoneNames then
      (s, stripMixamo s) :: buildBoneNameMapGo targetBoneNames rest
    else
      buildBoneNameMapGo targetBoneNames rest

/-- `buildBoneNameMap(sourceSkeleton, targetSkeleton, animationClip?)`:
the target skeleton enters only through its bone-name set
(`targetSkeleton.bones.map(b => b.name)`), so it is passed as that
list of names. -/
def buildBoneNameMap (sourceSkeleton : Option (List String)) (targetBoneNames : List String)
    (animationClip : Option Clip) : List (String × String) :=
  buildBoneNameMapGo targetBoneNames (sourceNamesOf sourceSkeleton animationClip)

/-- `APOSE_TO_TPOSE_OFFSET = THREE.MathUtils.degToRad(40)`;
`degToRad(d) = d * (Math.PI / 180)`, with `Math.PI` abstracted as `piQ`. -/
def APOSE_TO_TPOSE_OFFSET (piQ : Rat) : Rat := 40 * (piQ / 180)

/-- The `armBones` table of `applyTPoseCorrection` lines 112-117:
name/angle pairs, right-side angles negated, shoulder angles 0.3 times
the upper-arm angle. -/
def armBones (piQ : Rat) : List (String × Rat) :=
  [("LeftUpperArm", APOSE_TO_TPOSE_OFFSET piQ),
   ("RightUpperArm", -APOSE_TO_TPOSE_OFFSET piQ),
   ("LeftShoulder", APOSE_TO_TPOSE_OFFSET piQ * 0.3),
   ("RightShoulder", -APOSE_TO_TPOSE_OFFSET piQ * 0.3)]

/-- `findBoneByName(skeleton, name)`:
`skeleton.bones.find(b => b.name === name) || null`. -/
def findBoneByName (bones : List Bone) (name : String) : Option Bone :=
  bones.find? (fun b => b.name = name)

/-- Assign `q` to the local rotation of the first bone called `name`
(the bone `findBoneByName` returns); models mutating
`bone.quaternion` on the skeleton's live bone object. -/
def setBoneQuat : List Bone → String → Quat → List Bone
  | [], _, _ => []
  | b :: bs, name, q =>
    if b.name = name then ⟨b.name, q⟩ :: bs else b :: setBoneQuat bs name q

/-- Result of the `applyTPoseCorrection` loop: the mutated skeleton
bones, the `originalRotations` map entries in insertion order, and the
names warned about by `console.warn` for bones not found. -/
structure TPoseResult where
  bones : List Bone
  originals : List (String × Quat)
  warnings : List String
deriving DecidableEq

/-- The loop of `applyTPoseCorrection` lines 121-134 over a list of
`(name, angle)` entries: a found bone has its original rotation cloned
into the map and its quaternion premultiplied
(`bone.quaternion.premultiply(c)` is `c * bone.quaternion`) by
`setFromAxisAngle((0,0,1), angle)`; a missing bone only produces a
warning. -/
def applyEntries (msin mcos : Rat → Rat) :
    List (String × Rat) → List Bone → TPoseResult
  | [], bones => ⟨bones, [], []⟩
  | (name, angle) :: rest, bones =>
    match findBoneByName bones name with
    | some b =>
      let corrected := qmul (setFromAxisAngle msin mcos 0 0 1 angle) b.quaternion
      let r := applyEntries msin mcos rest (setBoneQuat bones name corrected)
      ⟨r.bones, (name, b.quaternion) :: r.originals, r.warnings⟩
    | none =>
      let r := applyEntries msin mcos rest bones
      ⟨r.bones, r.originals, name :: r.warnings⟩

/-- `applyTPoseCorrection(skeleton)` lines 109-138 (the final
`updateMatrixWorld` only refreshes derived world matrices, which the
claims do not observe). -/
def applyTPoseCorrection (msin mcos : Rat → Rat) (piQ : Rat) (bones : List Bone) : TPoseResult :=
  applyEntries msin mcos (armBones piQ) bones

/-- `restoreAPose(skeleton, originalRotations)` lines 141-152: for each
saved `[name, quat]` in insertion order, if the bone is found its local
rotation is overwritten with the verbatim saved value. -/
def restoreAPose (bones : List Bone) (originalRotations : List (String × Quat)) : List Bone :=
  originalRotations.foldl
    (fun bs p => if (findBoneByName bs p.1).isSome then setBoneQuat bs p.1 p.2 else bs)
    bones

/-- `createHandCorrectionQuaternions` lines 157-180: both hands receive
`xFlip = setFromAxisAngle((1,0,0), Math.PI)` (the computed `yFlip` and
`zFlip` are discarded by the source). -/
def xFlip (msin mcos : Rat → Rat) (piQ : Rat) : Quat :=
  setFromAxisAngle msin mcos 1 0 0 piQ

/-- The `handBoneCorrections` record of `retargetAnimationClip`
lines 200-205: X-axis flips for the hands, identity placeholders for
the forearms. -/
def handBoneCorrections (msin mcos : Rat → Rat) (piQ : Rat) : List (String × Quat) :=
  [("LeftHand", xFlip msin mcos piQ),
   ("RightHand", xFlip msin mcos piQ),
   ("LeftForeArm", qidentity),
   ("RightForeArm", qidentity)]

/-- The hand-correction loop of lines 243-254: for each stride-4 group
`(x, y, z, w)` of the flat values buffer, write the components of
`originalQuat.multiply(handCorrection)`, that is `q * c` with `q` the
sample.  A trailing group shorter than 4 (impossible for a well-formed
quaternion track, where `values.length = 4 * times.length`) is left
unchanged. -/
def correctQuatValues (c : Quat) : List Rat → List Rat
  | x :: y :: z :: w :: rest =>
    let q := qmul ⟨x, y, z, w⟩ c
    q.x :: q.y :: q.z :: q.w :: correctQuatValues c rest
  | rest => rest

/-- One iteration of the track loop of `retargetAnimationClip`
lines 207-289, as the optional produced track: `none` for a malformed
identifier, an unmapped source bone, or a `position`/`scale` property;
otherwise the renamed track, with quaternion samples post-multiplied by
the hand correction when the mapped bone has a non-identity entry in
`handBoneCorrections` and the property is `quaternion`. -/
def retargetTrack (msin mcos : Rat → Rat) (piQ : Rat) (boneNameMap : List (String × String))
    (track : Track) : Option Track :=
  match splitLastDot track.name with
  | none => none
  | some (boneName, property) =>
    match alist boneNameMap boneName with
    | none => none
    | some mappedBoneName =>
      if property = "position" ∨ property = "scale" then none
      else
        let newTrackName := mappedBoneName ++ "." ++ property
        match alist (handBoneCorrections msin mcos piQ) mappedBoneName with
        | some handCorrection =>
          if handCorrection ≠ qidentity ∧ property = "quaternion" then
            some ⟨newTrackName, track.times, correctQuatValues handCorrection track.values⟩
          else
            some ⟨newTrackName, track.times, track.values⟩
        | none => some ⟨newTrackName, track.times, track.values⟩

/-- The `console.warn` diagnostics of the track loop (line 212): the
names of the tracks whose identifier has no `'.'` separator. -/
def retargetWarnings (tracks : List Track) : List String :=
  (tracks.filter (fun tr => splitLastDot tr.name = none)).map Track.name

/-- `retargetAnimationClip(clip, boneNameMap, animationName)`
lines 183-305: the surviving tracks in order, the original duration,
and `clip.name || animationName` (the fallback fires exactly on the
empty, JS-falsy, name). -/
def retargetAnimationClip (msin mcos : Rat → Rat) (piQ : Rat) (clip : Clip)
    (boneNameMap : List (String × String)) (animationName : String) : Clip :=
  ⟨if clip.name = "" then animationName else clip.name,
   clip.duration,
   clip.tracks.filterMap (retargetTrack msin mcos piQ boneNameMap)⟩

/-- A three.js `Object3D` scene node as `findSkinnedMesh` observes it:
whether it is a `SkinnedMesh`, an identifying payload, and its
children in their defined order. -/
inductive Object3D where
  | mk : Bool → Nat → List Object3D → Object3D

/-- Whether the node is a `SkinnedMesh` (the `instanceof` test). -/
def Object3D.skinned : Object3D → Bool
  | .mk s _ _ => s

mutual

/-- The visit order of `object.traverse(callback)`: the node itself,
then each child's traversal in order (pre-order, children in defined
order). -/
def preorder : Object3D → List Object3D
  | .mk s i cs => .mk s i cs :: preorderList cs

/-- Traversal order of a list of sibling subtrees. -/
def preorderList : List Object3D → List Object3D
  | [] => []
  | c :: cs => preorder c ++ preorderList cs

end

/-- `findSkinnedMesh(object)` lines 23-31: traverse the whole
hierarchy, keeping the first `SkinnedMesh` seen
(`if (child instanceof SkinnedMesh && !result) result = child`).
It only reads the hierarchy, so the model is a pure fold. -/
def findSkinnedMesh (object : Object3D) : Option Object3D :=
  (preorder object).foldl
    (fun result child => if child.skinned && result.isNone then some child else result)
    none

/-! ## Lemmas about the prefix test and the identifier split -/

theorem isPre_append_left : ∀ p q s : List Char, isPre (p ++ q) s = true → isPre p s = true
  | [], _, _, _ => rfl
  | _ :: _, _, [], h => by simp [isPre] at h
  | p :: ps, q, c :: cs, h => by
    simp only [List.cons_append, isPre, Bool.and_eq_true, decide_eq_true_eq] at h ⊢
    exact ⟨h.1, isPre_append_left ps q cs h.2⟩

theorem splitLastDotAux_none_iff : ∀ l : List Char,
    splitLastDotAux l = none ↔ ∀ c ∈ l, c ≠ '.'
  | [] => by simp [splitLastDotAux]
  | c :: cs => by
    simp only [splitLastDotAux]
    rcases h : splitLastDotAux cs with _ | ⟨b, p⟩
    · have ih := (splitLastDotAux_none_iff cs).mp h
      by_cases hc : c = '.'
      · simp [hc]
      · simp only [hc, if_neg hc, List.mem_cons]
        constructor
        · intro _ x hx
          rcases hx with rfl | hx
          · exact hc
          · exact ih x hx
        · intro _; rfl
    · simp only [List.mem_cons]
      constructor
      · intro hcontra; exact absurd hcontra (by simp)
      · intro hall
        have : splitLastDotAux cs = none :=
          (splitLastDotAux_none_iff cs).mpr (fun x hx => hall x (Or.inr hx))
        rw [this] at h
        exact absurd h (by simp)

theorem splitLastDotAux_snd_no_dot : ∀ l b p, splitLastDotAux l = some (b, p) →
    splitLastDotAux p = none
  | [], _, _, h => by simp [splitLastDotAux] at h
  | c :: cs, b, p, h => by
    simp only [splitLastDotAux] at h
    rcases hrec : splitLastDotAux cs with _ | ⟨b', p'⟩
    · rw [hrec] at h
      by_cases hc : c = '.'
      · rw [if_pos hc] at h
        have hp : cs = p := congrArg Prod.snd (Option.some.inj h)
        rw [← hp]
        exact hrec
      · rw [if_neg hc] at h
        exact absurd h (by simp)
    · rw [hrec] at h
      have hp : p' = p := congrArg Prod.snd (Option.some.inj h)
      rw [← hp]
      exact splitLastDotAux_snd_no_dot cs b' p' hrec

theorem splitLastDotAux_append (m p : List Char) (hp : splitLastDotAux p = none) :
    splitLastDotAux (m ++ '.' :: p) = some (m, p) := by
  induction m with
  | nil => simp [splitLastDotAux, hp]
  | cons c cs ih => simp [splitLastDotAux, ih]

theorem string_data_append (a b : String) : (a ++ b).data = a.data ++ b.data := rfl

/-- Rebuilding a composite identifier around a property that came out
of `splitLastDot` splits back at the same dot. -/
theorem splitLastDot_rebuild (m s bn p : String) (h : splitLastDot s = some (bn, p)) :
    splitLastDot (m ++ "." ++ p) = some (m, p) := by
  unfold splitLastDot at h ⊢
  rcases haux : splitLastDotAux s.data with _ | ⟨b', p'⟩
  · rw [haux] at h; exact absurd h (by simp)
  · rw [haux] at h
    simp only [Option.some.injEq, Prod.mk.injEq] at h
    have hpd : p.data = p' := by rw [← h.2]
    have hnone : splitLastDotAux p.data = none := by
      rw [hpd]; exact splitLastDotAux_snd_no_dot s.data b' p' haux
    have hdot : ("." : String).data = ['.'] := rfl
    have hdata : (m ++ "." ++ p).data = m.data ++ '.' :: p.data := by
      rw [string_data_append, string_data_append, hdot, List.append_assoc,
        List.singleton_append]
    rw [hdata, splitLastDotAux_append m.data p.data hnone]

/-! ## C6: prefix stripping -/

/-- C6 (counterexample): the claim "for any source bone name that
starts with the known prefix, stripping yields a name that no longer
has the prefix at the start" (and with it idempotence) fails on the
doubled-prefix name `"mixamorigmixamorigHips"`: it starts with the
prefix, its stripped form `"mixamorigHips"` still starts with the
prefix, and stripping again changes the result. -/
theorem stripMixamo_claim_counterexample :
    isPre mixamoChars (String.data "mixamorigmixamorigHips") = true ∧
    isPre mixamoChars (String.data (stripMixamo "mixamorigmixamorigHips")) = true ∧
    stripMixamo (stripMixamo "mixamorigmixamorigHips") ≠
      stripMixamo "mixamorigmixamorigHips" := by decide

/-- Stripping leaves any name that does not start with the prefix
unchanged. -/
theorem stripMixamo_not_pre (t : String) (h : isPre mixamoChars t.data = false) :
    stripMixamo t = t := by
  unfold stripMixamo
  have h1 : isPre (mixamoChars ++ [':']) t.data = false := by
    rcases hb : isPre (mixamoChars ++ [':']) t.data
    · rfl
    · rw [isPre_append_left mixamoChars [':'] t.data hb] at h
      exact absurd h (by simp)
  rw [h1, h]
  rfl

/-- C6 (amended): stripping is total, removes at most one leading
occurrence of the prefix, leaves a name without the prefix unchanged,
and is idempotent on every name whose stripped form no longer starts
with the prefix (equivalently, on every name without a doubled
prefix). -/
theorem stripMixamo_amended (s : String) :
    (isPre mixamoChars s.data = false → stripMixamo s = s) ∧
    (isPre mixamoChars (stripMixamo s).data = false →
      stripMixamo (stripMixamo s) = stripMixamo s) :=
  ⟨stripMixamo_not_pre s, stripMixamo_not_pre (stripMixamo s)⟩

/-- C6 (witness): the amended statement applied at the unprefixed name
`"Hips"` and at the singly-prefixed name `"mixamorigHips"`. -/
theorem stripMixamo_amended_witness :
    stripMixamo "Hips" = "Hips" ∧
    stripMixamo (stripMixamo "mixamorigHips") = stripMixamo "mixamorigHips" :=
  ⟨(stripMixamo_amended "Hips").1 (by decide),
   (stripMixamo_amended "mixamorigHips").2 (by decide)⟩

/-! ## C8: findSkinnedMesh -/

theorem findSkinnedMesh_foldl_some (l : List Object3D) (x : Object3D) :
    l.foldl (fun result child => if child.skinned && result.isNone then some child else result)
      (some x) = some x := by
  induction l with
  | nil => rfl
  | cons c cs ih => simpa using ih

theorem findSkinnedMesh_foldl_none (l : List Object3D) :
    l.foldl (fun result child => if child.skinned && result.isNone then some child else result)
      none = l.find? Object3D.skinned := by
  induction l with
  | nil => rfl
  | cons c cs ih =>
    rcases hc : c.skinned
    · simpa [List.find?, hc] using ih
    · simp [List.find?, hc, findSkinnedMesh_foldl_some]

/-- C8: `findSkinnedMesh` returns exactly the first skinned-mesh node
of the deterministic pre-order traversal (node first, then the children
in their defined order), and returns `none` precisely when no node
anywhere under the root is a skinned mesh.  The model is a pure
function of the hierarchy, so it has no side effects on it. -/
theorem findSkinnedMesh_first_preorder (o : Object3D) :
    findSkinnedMesh o = (preorder o).find? Object3D.skinned ∧
    (findSkinnedMesh o = none ↔ ∀ n ∈ preorder o, n.skinned = false) := by
  have h1 : findSkinnedMesh o = (preorder o).find? Object3D.skinned :=
    findSkinnedMesh_foldl_none (preorder o)
  constructor
  · exact h1
  · rw [h1, List.find?_eq_none]
    constructor
    · intro h n hn
      have := h n hn
      simpa using this
    · intro h n hn
      simp [h n hn]

/-- C8 (witness): the characterization applied to a concrete hierarchy
whose first skinned node in pre-order is the grandchild with payload 2,
and to a hierarchy with no skinned node at all. -/
theorem findSkinnedMesh_first_preorder_witness :
    findSkinnedMesh (.mk false 0 [.mk false 1 [.mk true 2 []], .mk true 3 []]) =
      some (.mk true 2 []) ∧
    findSkinnedMesh (.mk false 0 [.mk false 1 []]) = none := by
  constructor
  · rw [(findSkinnedMesh_first_preorder
      (.mk false 0 [.mk false 1 [.mk true 2 []], .mk true 3 []])).1]
    rfl
  · exact (findSkinnedMesh_first_preorder (.mk false 0 [.mk false 1 []])).2.mpr
      (by decide)

/-! ## C9: duplicate output track names -/

/-- C9: `buildBoneNameMap` is not injective and `retargetAnimationClip`
does not deduplicate output names: the two distinct source bones
`"mixamorigHips"` and `"mixamorig:Hips"` both map to `"Hips"`, and a
clip holding a quaternion track for each yields an output clip with two
tracks that both carry the name `"Hips.quaternion"`. -/
theorem retarget_duplicate_track_names :
    buildBoneNameMap (some ["mixamorigHips", "mixamorig:Hips"]) ["Hips"] none =
      [("mixamorigHips", "Hips"), ("mixamorig:Hips", "Hips")] ∧
    "mixamorigHips" ≠ "mixamorig:Hips" ∧
    (retargetAnimationClip (fun _ => 1) (fun _ => 0) 0
      ⟨"c", 1, [⟨"mixamorigHips.quaternion", [0], [0, 0, 0, 1]⟩,
                ⟨"mixamorig:Hips.quaternion", [0], [0, 0, 0, 1]⟩]⟩
      (buildBoneNameMap (some ["mixamorigHips", "mixamorig:Hips"]) ["Hips"] none)
      "fb").tracks.map Track.name = ["Hips.quaternion", "Hips.quaternion"] := by decide

/-! ## Lemmas about the track loop -/

/-- Flatten quaternion samples into a stride-4 values buffer (how a
`QuaternionKeyframeTrack` lays out its `values` array). -/
def qflat : List Quat → List Rat
  | [] => []
  | q :: qs => q.x :: q.y :: q.z :: q.w :: qflat qs

theorem correctQuatValues_qflat (c : Quat) :
    ∀ qs : List Quat, correctQuatValues c (qflat qs) = qflat (qs.map (fun q => qmul q c))
  | [] => rfl
  | q :: qs => by
    simp only [qflat, correctQuatValues, List.map_cons, correctQuatValues_qflat c qs]

theorem correctQuatValues_length (c : Quat) :
    ∀ vs : List Rat, (correctQuatValues c vs).length = vs.length
  | [] => rfl
  | [_] => rfl
  | [_, _] => rfl
  | [_, _, _] => rfl
  | x :: y :: z :: w :: rest => by
    simp only [correctQuatValues, List.length_cons, correctQuatValues_length c rest]

/-- Every track that survives the loop keeps its `times` array
untouched and its `values` buffer length. -/
theorem retargetTrack_times_values (msin mcos : Rat → Rat) (piQ : Rat)
    (bmap : List (String × String)) (tr out : Track)
    (hout : retargetTrack msin mcos piQ bmap tr = some out) :
    out.times = tr.times ∧ out.values.length = tr.values.length := by
  unfold retargetTrack at hout
  split at hout
  · exact absurd hout (by simp)
  · split at hout
    · exact absurd hout (by simp)
    · split at hout
      · exact absurd hout (by simp)
      · split at hout
        · split at hout
          · obtain rfl := Option.some.inj hout
            exact ⟨rfl, correctQuatValues_length _ _⟩
          · obtain rfl := Option.some.inj hout
            exact ⟨rfl, rfl⟩
        · obtain rfl := Option.some.inj hout
          exact ⟨rfl, rfl⟩

/-- Every track that survives the loop is the composite of a mapped
bone name and the original property, and neither `position` nor
`scale` survives. -/
theorem retargetTrack_shape (msin mcos : Rat → Rat) (piQ : Rat)
    (bmap : List (String × String)) (tr out : Track)
    (hout : retargetTrack msin mcos piQ bmap tr = some out) :
    ∃ bn p mapped, splitLastDot tr.name = some (bn, p) ∧ alist bmap bn = some mapped ∧
      out.name = mapped ++ "." ++ p ∧ ¬(p = "position" ∨ p = "scale") := by
  unfold retargetTrack at hout
  split at hout
  · exact absurd hout (by simp)
  · rename_i bn p heq
    split at hout
    · exact absurd hout (by simp)
    · rename_i mapped hmap
      split at hout
      · exact absurd hout (by simp)
      · rename_i hprop
        refine ⟨bn, p, mapped, heq, hmap, ?_, hprop⟩
        split at hout
        · split at hout
          · obtain rfl := Option.some.inj hout
            rfl
          · obtain rfl := Option.some.inj hout
            rfl
        · obtain rfl := Option.some.inj hout
          rfl

/-- Under the exact trigonometric values `sin(pi/2) = 1` and
`cos(pi/2) = 0`, the hand correction is the 180-degree rotation about
the local X axis, the quaternion `(1, 0, 0, 0)`. -/
theorem xFlip_eval (msin mcos : Rat → Rat) (piQ : Rat)
    (hs : msin (piQ / 2) = 1) (hc : mcos (piQ / 2) = 0) :
    xFlip msin mcos piQ = ⟨1, 0, 0, 0⟩ := by
  simp [xFlip, setFromAxisAngle, hs, hc]

/-- When the mapped bone is a hand and the property is `quaternion`,
the loop takes the hand-correction branch: the output values are the
stride-4 buffer with every sample post-multiplied by the correction. -/
theorem retargetTrack_hand (msin mcos : Rat → Rat) (piQ : Rat)
    (bmap : List (String × String)) (tr : Track) (bn mapped : String)
    (hsplit : splitLastDot tr.name = some (bn, "quaternion"))
    (hmap : alist bmap bn = some mapped)
    (hhand : mapped = "LeftHand" ∨ mapped = "RightHand")
    (hne : xFlip msin mcos piQ ≠ qidentity) :
    retargetTrack msin mcos piQ bmap tr =
      some ⟨mapped ++ "." ++ "quaternion", tr.times,
            correctQuatValues (xFlip msin mcos piQ) tr.values⟩ := by
  rcases hhand with rfl | rfl <;>
    simp [retargetTrack, hsplit, hmap, handBoneCorrections, alist, hne]

/-! ## C1: surviving tracks keep times and counts; hand samples are q * c -/

/-- C1: a track that survives retargeting appears in the output clip
with its timestamp list unchanged and its sample buffer of unchanged
length; and when the mapped target bone is a hand (whose correction,
under the exact values `sin(pi/2) = 1` and `cos(pi/2) = 0` of the
opaque trigonometric functions, is the non-identity 180-degree X
rotation `(1,0,0,0)`) and the property is `quaternion`, every output
sample is the post-multiplication `q * c` of the original sample `q`;
moreover post- and pre-multiplication by that correction genuinely
differ. -/
theorem retarget_preserves_times_and_hand_postmul
    (msin mcos : Rat → Rat) (piQ : Rat) (bmap : List (String × String)) (clip : Clip)
    (animationName : String) (tr out : Track)
    (hs : msin (piQ / 2) = 1) (hc : mcos (piQ / 2) = 0)
    (htr : tr ∈ clip.tracks)
    (hout : retargetTrack msin mcos piQ bmap tr = some out) :
    out ∈ (retargetAnimationClip msin mcos piQ clip bmap animationName).tracks ∧
    out.times = tr.times ∧
    out.values.length = tr.values.length ∧
    (∀ bn mapped qs, splitLastDot tr.name = some (bn, "quaternion") →
      alist bmap bn = some mapped → (mapped = "LeftHand" ∨ mapped = "RightHand") →
      tr.values = qflat qs →
      out.values = qflat (qs.map (fun q => qmul q ⟨1, 0, 0, 0⟩))) ∧
    qmul ⟨0, 1, 0, 0⟩ (xFlip msin mcos piQ) ≠ qmul (xFlip msin mcos piQ) ⟨0, 1, 0, 0⟩ := by
  have hx := xFlip_eval msin mcos piQ hs hc
  have htv := retargetTrack_times_values msin mcos piQ bmap tr out hout
  refine ⟨?_, htv.1, htv.2, ?_, ?_⟩
  · have : out ∈ clip.tracks.filterMap (retargetTrack msin mcos piQ bmap) :=
      List.mem_filterMap.mpr ⟨tr, htr, hout⟩
    exact this
  · intro bn mapped qs hsplit hmap hhand hvals
    have hne : xFlip msin mcos piQ ≠ qidentity := by
      rw [hx]; decide
    have hh := retargetTrack_hand msin mcos piQ bmap tr bn mapped hsplit hmap hhand hne
    have heq := hh.symm.trans hout
    obtain rfl := Option.some.inj heq
    show correctQuatValues (xFlip msin mcos piQ) tr.values = _
    rw [hvals, correctQuatValues_qflat, hx]
  · rw [hx]
    simp only [qmul, Quat.mk.injEq, ne_eq, not_and]
    norm_num

/-- C1 (witness): a two-sample `LeftHand` quaternion track, with the
identity and the pure-j sample, survives into the output clip with the
samples post-multiplied by `(1,0,0,0)`. -/
theorem retarget_preserves_times_and_hand_postmul_witness :
    (⟨"LeftHand.quaternion", [0, 1], [1, 0, 0, 0, 0, 0, -1, 0]⟩ : Track) ∈
      (retargetAnimationClip (fun _ => 1) (fun _ => 0) 0
        ⟨"c", 1, [⟨"mixamorigLeftHand.quaternion", [0, 1], [0, 0, 0, 1, 0, 1, 0, 0]⟩]⟩
        [("mixamorigLeftHand", "LeftHand")] "fb").tracks ∧
    (⟨"LeftHand.quaternion", [0, 1], [1, 0, 0, 0, 0, 0, -1, 0]⟩ : Track).values =
      qflat ([⟨0, 0, 0, 1⟩, ⟨0, 1, 0, 0⟩].map (fun q => qmul q ⟨1, 0, 0, 0⟩)) := by
  have hout : retargetTrack (fun _ => 1) (fun _ => 0) 0 [("mixamorigLeftHand", "LeftHand")]
      ⟨"mixamorigLeftHand.quaternion", [0, 1], [0, 0, 0, 1, 0, 1, 0, 0]⟩ =
      some ⟨"LeftHand.quaternion", [0, 1], [1, 0, 0, 0, 0, 0, -1, 0]⟩ := by
    simp +decide only [retargetTrack, splitLastDot, splitLastDotAux, alist,
      handBoneCorrections, xFlip, setFromAxisAngle, qidentity, correctQuatValues, qmul]
    norm_num
    decide
  have h := retarget_preserves_times_and_hand_postmul (fun _ => 1) (fun _ => 0) 0
    [("mixamorigLeftHand", "LeftHand")]
    ⟨"c", 1, [⟨"mixamorigLeftHand.quaternion", [0, 1], [0, 0, 0, 1, 0, 1, 0, 0]⟩]⟩
    "fb" ⟨"mixamorigLeftHand.quaternion", [0, 1], [0, 0, 0, 1, 0, 1, 0, 0]⟩
    ⟨"LeftHand.quaternion", [0, 1], [1, 0, 0, 0, 0, 0, -1, 0]⟩
    rfl rfl (by decide) hout
  refine ⟨h.1, ?_⟩
  exact h.2.2.2.1 "mixamorigLeftHand" "LeftHand" [⟨0, 0, 0, 1⟩, ⟨0, 1, 0, 0⟩]
    (by decide) (by decide) (Or.inl rfl) (by decide)

/-! ## C2: no position or scale track survives -/

/-- C2: in every retargeted clip, no output track's property (the part
of its identifier after the last dot) is `position` or `scale`: those
input tracks are dropped unconditionally. -/
theorem retargetAnimationClip_no_position_scale
    (msin mcos : Rat → Rat) (piQ : Rat) (bmap : List (String × String)) (clip : Clip)
    (animationName : String) (out : Track) (b p : String)
    (hout : out ∈ (retargetAnimationClip msin mcos piQ clip bmap animationName).tracks)
    (hsplit : splitLastDot out.name = some (b, p)) :
    p ≠ "position" ∧ p ≠ "scale" := by
  have hout' : out ∈ clip.tracks.filterMap (retargetTrack msin mcos piQ bmap) := hout
  obtain ⟨tr, htr, hsome⟩ := List.mem_filterMap.mp hout'
  obtain ⟨bn, p0, mapped, hsp, hmap, hname, hprop⟩ :=
    retargetTrack_shape msin mcos piQ bmap tr out hsome
  have h2 : splitLastDot out.name = some (mapped, p0) := by
    rw [hname]
    exact splitLastDot_rebuild mapped tr.name bn p0 hsp
  rw [hsplit] at h2
  have hp : p = p0 := congrArg Prod.snd (Option.some.inj h2)
  rw [hp]
  push_neg at hprop
  exact hprop

/-- C2 (witness): the invariant applied to the output track of a
one-track quaternion clip. -/
theorem retargetAnimationClip_no_position_scale_witness :
    "quaternion" ≠ "position" ∧ "quaternion" ≠ "scale" :=
  retargetAnimationClip_no_position_scale (fun _ => 1) (fun _ => 0) 0
    [("mixamorigHips", "Hips")]
    ⟨"c", 1, [⟨"mixamorigHips.quaternion", [0], [0, 0, 0, 1]⟩]⟩ "fb"
    ⟨"Hips.quaternion", [0], [0, 0, 0, 1]⟩ "Hips" "quaternion"
    (by decide) (by decide)

/-! ## C3: buildBoneNameMap -/

/-- Characterization of the mapping loop: `s` is mapped exactly to its
stripped form whenever `s` is a source bone name and the stripped form
is a target bone name, and is unmapped otherwise. -/
theorem alist_buildBoneNameMapGo (targets : List String) :
    ∀ (src : List String) (s : String),
      alist (buildBoneNameMapGo targets src) s =
        if s ∈ src ∧ stripMixamo s ∈ targets then some (stripMixamo s) else none
  | [], s => by simp [buildBoneNameMapGo, alist]
  | a :: rest, s => by
    by_cases ha : stripMixamo a ∈ targets
    · simp only [buildBoneNameMapGo, if_pos ha, alist]
      by_cases has : a = s
      · subst has
        rw [if_pos rfl, if_pos ⟨List.mem_cons_self a rest, ha⟩]
      · rw [if_neg has, alist_buildBoneNameMapGo targets rest s]
        have hmem : (s ∈ a :: rest) ↔ (s ∈ rest) := by
          rw [List.mem_cons]
          constructor
          · intro h
            rcases h with h1 | h1
            · exact absurd h1.symm has
            · exact h1
          · exact fun h => Or.inr h
        rw [if_congr (and_congr hmem Iff.rfl) rfl rfl]
    · simp only [buildBoneNameMapGo, if_neg ha]
      rw [alist_buildBoneNameMapGo targets rest s]
      by_cases has : a = s
      · subst has
        rw [if_neg (fun h => ha h.2), if_neg (fun h => ha h.2)]
      · have hmem : (s ∈ a :: rest) ↔ (s ∈ rest) := by
          rw [List.mem_cons]
          constructor
          · intro h
            rcases h with h1 | h1
            · exact absurd h1.symm has
            · exact h1
          · exact fun h => Or.inr h
        rw [if_congr (and_congr hmem Iff.rfl) rfl rfl]

/-- C3: `buildBoneNameMap` maps a source bone name `s` exactly to its
prefix-stripped candidate when the candidate is a member of the target
bone-name set and leaves `s` unmapped otherwise; it is deterministic in
that the produced lookup function depends only on the source and target
name sets; every mapped value is a member of the target set; and every
track emitted by `retargetAnimationClip` under such a map is named by a
bone of the target skeleton. -/
theorem buildBoneNameMap_spec
    (sourceSkeleton : Option (List String)) (targetBoneNames : List String)
    (animationClip : Option Clip) (msin mcos : Rat → Rat) (piQ : Rat) :
    (∀ s, alist (buildBoneNameMap sourceSkeleton targetBoneNames animationClip) s =
      if s ∈ sourceNamesOf sourceSkeleton animationClip ∧ stripMixamo s ∈ targetBoneNames
      then some (stripMixamo s) else none) ∧
    (∀ (src2 : Option (List String)) (targets2 : List String) (clip2 : Option Clip),
      (∀ x, x ∈ sourceNamesOf sourceSkeleton animationClip ↔ x ∈ sourceNamesOf src2 clip2) →
      (∀ x, x ∈ targetBoneNames ↔ x ∈ targets2) →
      ∀ s, alist (buildBoneNameMap sourceSkeleton targetBoneNames animationClip) s =
        alist (buildBoneNameMap src2 targets2 clip2) s) ∧
    (∀ s v, alist (buildBoneNameMap sourceSkeleton targetBoneNames animationClip) s = some v →
      v ∈ targetBoneNames) ∧
    (∀ (clip' : Clip) (animationName : String) (out : Track),
      out ∈ (retargetAnimationClip msin mcos piQ clip'
        (buildBoneNameMap sourceSkeleton targetBoneNames animationClip) animationName).tracks →
      ∃ b p, out.name = b ++ "." ++ p ∧ b ∈ targetBoneNames) := by
  have hchar : ∀ s, alist (buildBoneNameMap sourceSkeleton targetBoneNames animationClip) s =
      if s ∈ sourceNamesOf sourceSkeleton animationClip ∧ stripMixamo s ∈ targetBoneNames
      then some (stripMixamo s) else none :=
    fun s => alist_buildBoneNameMapGo targetBoneNames (sourceNamesOf sourceSkeleton animationClip) s
  have hval : ∀ s v,
      alist (buildBoneNameMap sourceSkeleton targetBoneNames animationClip) s = some v →
      v ∈ targetBoneNames := by
    intro s v h
    rw [hchar s] at h
    by_cases hcond : s ∈ sourceNamesOf sourceSkeleton animationClip ∧
        stripMixamo s ∈ targetBoneNames
    · rw [if_pos hcond] at h
      rw [← Option.some.inj h]
      exact hcond.2
    · rw [if_neg hcond] at h
      exact absurd h (by simp)
  refine ⟨hchar, ?_, hval, ?_⟩
  · intro src2 targets2 clip2 hsrc ht s
    have hchar2 : alist (buildBoneNameMap src2 targets2 clip2) s =
        if s ∈ sourceNamesOf src2 clip2 ∧ stripMixamo s ∈ targets2
        then some (stripMixamo s) else none :=
      alist_buildBoneNameMapGo targets2 (sourceNamesOf src2 clip2) s
    rw [hchar s, hchar2]
    by_cases h2 : stripMixamo s ∈ targetBoneNames
    · rw [if_congr (and_congr (hsrc s) (ht (stripMixamo s))) rfl rfl]
    · rw [if_neg (fun h => h2 h.2), if_neg (fun h => h2 ((ht (stripMixamo s)).mpr h.2))]
  · intro clip' animationName out hout
    have hout' : out ∈ clip'.tracks.filterMap (retargetTrack msin mcos piQ
        (buildBoneNameMap sourceSkeleton targetBoneNames animationClip)) := hout
    obtain ⟨tr, htr, hsome⟩ := List.mem_filterMap.mp hout'
    obtain ⟨bn, p0, mapped, hsp, hmap, hname, hprop⟩ :=
      retargetTrack_shape msin mcos piQ _ tr out hsome
    exact ⟨mapped, p0, hname, hval bn mapped hmap⟩

/-- C3 (witness): the membership and determinism conjuncts applied at
a concrete one-bone source/target pair. -/
theorem buildBoneNameMap_spec_witness :
    ("Hips" : String) ∈ ["Hips"] ∧
    alist (buildBoneNameMap (some ["mixamorigHips"]) ["Hips"] none) "mixamorigHips" =
      alist (buildBoneNameMap (some ["mixamorigHips"]) ["Hips"] none) "mixamorigHips" :=
  ⟨(buildBoneNameMap_spec (some ["mixamorigHips"]) ["Hips"] none (fun _ => 1) (fun _ => 0)
      0).2.2.1 "mixamorigHips" "Hips" (by decide),
   (buildBoneNameMap_spec (some ["mixamorigHips"]) ["Hips"] none (fun _ => 1) (fun _ => 0)
      0).2.1 (some ["mixamorigHips"]) ["Hips"] none (fun _ => Iff.rfl) (fun _ => Iff.rfl)
      "mixamorigHips"⟩

/-! ## C7: per-track error handling -/

/-- C7: a malformed track identifier (no separator) or an unmapped
source bone only drops that single track: the surrounding tracks are
still processed and concatenated; the malformed case additionally
produces a warning carrying the track name; and unconditionally (so in
particular when zero tracks survive) the returned clip is well-formed,
keeps the input duration, and keeps the input clip name, falling back
to the caller-supplied name only when the clip is unnamed. -/
theorem retargetAnimationClip_error_handling
    (msin mcos : Rat → Rat) (piQ : Rat) (bmap : List (String × String)) (clip : Clip)
    (pre post : List Track) (bad : Track) (animationName : String) :
    ((splitLastDot bad.name = none ∨
      (∃ b p, splitLastDot bad.name = some (b, p) ∧ alist bmap b = none)) →
      (retargetAnimationClip msin mcos piQ ⟨clip.name, clip.duration, pre ++ bad :: post⟩
        bmap animationName).tracks =
      (retargetAnimationClip msin mcos piQ ⟨clip.name, clip.duration, pre⟩
        bmap animationName).tracks ++
      (retargetAnimationClip msin mcos piQ ⟨clip.name, clip.duration, post⟩
        bmap animationName).tracks) ∧
    (splitLastDot bad.name = none → bad.name ∈ retargetWarnings (pre ++ bad :: post)) ∧
    (retargetAnimationClip msin mcos piQ clip bmap animationName).duration = clip.duration ∧
    (retargetAnimationClip msin mcos piQ clip bmap animationName).name =
      (if clip.name = "" then animationName else clip.name) := by
  refine ⟨?_, ?_, rfl, rfl⟩
  · intro hdrop
    have hbad : retargetTrack msin mcos piQ bmap bad = none := by
      rcases hdrop with hmal | ⟨b, p, hsp, hm⟩
      · simp [retargetTrack, hmal]
      · simp [retargetTrack, hsp, hm]
    show (pre ++ bad :: post).filterMap (retargetTrack msin mcos piQ bmap) =
      pre.filterMap (retargetTrack msin mcos piQ bmap) ++
      post.filterMap (retargetTrack msin mcos piQ bmap)
    simp [List.filterMap_append, List.filterMap_cons, hbad]
  · intro hmal
    unfold retargetWarnings
    refine List.mem_map.mpr ⟨bad, List.mem_filter.mpr ⟨?_, ?_⟩, rfl⟩
    · exact List.mem_append.mpr (Or.inr (List.mem_cons_self bad post))
    · simp [hmal]

/-- C7 (witness): a clip whose only track has no separator yields the
empty track list, a warning, the original duration, and the fallback
name. -/
theorem retargetAnimationClip_error_handling_witness :
    (retargetAnimationClip (fun _ => 1) (fun _ => 0) 0 ⟨"", 2, [⟨"nodothere", [0], [1]⟩]⟩
      [] "fb").tracks =
      (retargetAnimationClip (fun _ => 1) (fun _ => 0) 0 ⟨"", 2, []⟩ [] "fb").tracks ++
      (retargetAnimationClip (fun _ => 1) (fun _ => 0) 0 ⟨"", 2, []⟩ [] "fb").tracks ∧
    "nodothere" ∈ retargetWarnings [⟨"nodothere", [0], [1]⟩] ∧
    (retargetAnimationClip (fun _ => 1) (fun _ => 0) 0 ⟨"", 2, []⟩ [] "fb").duration = 2 ∧
    (retargetAnimationClip (fun _ => 1) (fun _ => 0) 0 ⟨"", 2, []⟩ [] "fb").name = "fb" := by
  have h := retargetAnimationClip_error_handling (fun _ => 1) (fun _ => 0) 0 []
    ⟨"", 2, []⟩ [] [] ⟨"nodothere", [0], [1]⟩ "fb"
  exact ⟨h.1 (Or.inl (by decide)), h.2.1 (by decide), h.2.2.1, by rw [h.2.2.2]; decide⟩

/-! ## Lemmas about bone lookup and assignment -/

theorem findBoneByName_setBoneQuat_ne :
    ∀ (bs : List Bone) (n m : String) (q : Quat), n ≠ m →
      findBoneByName (setBoneQuat bs m q) n = findBoneByName bs n
  | [], _, _, _, _ => rfl
  | b :: bs, n, m, q, hne => by
    by_cases hb : b.name = m
    · simp only [setBoneQuat, if_pos hb, findBoneByName, List.find?]
      have h1 : (decide (b.name = n)) = false := by
        simp [hb, Ne.symm hne]
      simp [h1]
    · simp only [setBoneQuat, if_neg hb, findBoneByName, List.find?]
      rcases h1 : decide (b.name = n)
      · simpa using findBoneByName_setBoneQuat_ne bs n m q hne
      · rfl

theorem findBoneByName_setBoneQuat_eq :
    ∀ (bs : List Bone) (n : String) (q : Quat),
      findBoneByName (setBoneQuat bs n q) n =
        (findBoneByName bs n).map (fun b => ⟨b.name, q⟩)
  | [], _, _ => rfl
  | b :: bs, n, q => by
    by_cases hb : b.name = n
    · simp [setBoneQuat, if_pos hb, findBoneByName, List.find?, hb]
    · simp only [setBoneQuat, if_neg hb, findBoneByName, List.find?]
      rcases h1 : decide (b.name = n)
      · simpa using findBoneByName_setBoneQuat_eq bs n q
      · simp at h1
        exact absurd h1 hb

theorem setBoneQuat_comm :
    ∀ (bs : List Bone) (n m : String) (p q : Quat), n ≠ m →
      setBoneQuat (setBoneQuat bs m q) n p = setBoneQuat (setBoneQuat bs n p) m q
  | [], _, _, _, _, _ => rfl
  | b :: bs, n, m, p, q, hne => by
    by_cases hbm : b.name = m
    · have hbn : ¬(b.name = n) := by rw [hbm]; exact Ne.symm hne
      simp [setBoneQuat, hbm, hbn, Ne.symm hne]
    · by_cases hbn : b.name = n
      · simp [setBoneQuat, hbm, hbn, hne]
      · simp only [setBoneQuat, if_neg hbm, if_neg hbn]
        simp [setBoneQuat, hbm, hbn, setBoneQuat_comm bs n m p q hne]

theorem setBoneQuat_override :
    ∀ (bs : List Bone) (n : String) (p q : Quat),
      setBoneQuat (setBoneQuat bs n q) n p = setBoneQuat bs n p
  | [], _, _, _ => rfl
  | b :: bs, n, p, q => by
    by_cases hb : b.name = n
    · simp [setBoneQuat, hb]
    · simp [setBoneQuat, hb, setBoneQuat_override bs n p q]

theorem setBoneQuat_self :
    ∀ (bs : List Bone) (n : String) (b : Bone), findBoneByName bs n = some b →
      setBoneQuat bs n b.quaternion = bs
  | [], _, _, h => by simp [findBoneByName] at h
  | b0 :: bs, n, b, h => by
    simp only [findBoneByName] at h
    by_cases hb : b0.name = n
    · rw [List.find?_cons_of_pos _ (by simpa using hb)] at h
      have hfound : b0 = b := Option.some.inj h
      simp only [setBoneQuat, if_pos hb]
      rw [← hfound]
    · rw [List.find?_cons_of_neg _ (by simpa using hb)] at h
      simp only [setBoneQuat, if_neg hb]
      rw [setBoneQuat_self bs n b h]

theorem findBoneByName_isSome_setBoneQuat (bs : List Bone) (n m : String) (q : Quat) :
    (findBoneByName (setBoneQuat bs m q) n).isSome = (findBoneByName bs n).isSome := by
  by_cases hnm : n = m
  · subst hnm
    rw [findBoneByName_setBoneQuat_eq bs n q]
    rcases findBoneByName bs n with _ | b <;> rfl
  · rw [findBoneByName_setBoneQuat_ne bs n m q hnm]

theorem setBoneQuat_getElem_ne :
    ∀ (bs : List Bone) (m : String) (q : Quat) (i : Nat) (b : Bone),
      bs[i]? = some b → b.name ≠ m → (setBoneQuat bs m q)[i]? = some b
  | [], _, _, i, _, h, _ => by simp at h
  | b0 :: bs, m, q, 0, b, h, hbm => by
    simp only [List.getElem?_cons_zero, Option.some.injEq] at h
    subst h
    have hb0 : ¬(b0.name = m) := hbm
    simp [setBoneQuat, if_neg hb0]
  | b0 :: bs, m, q, Nat.succ i, b, h, hbm => by
    simp only [List.getElem?_cons_succ] at h
    by_cases hb0 : b0.name = m
    · simp [setBoneQuat, if_pos hb0, h]
    · simp only [setBoneQuat, if_neg hb0, List.getElem?_cons_succ]
      exact setBoneQuat_getElem_ne bs m q i b h hbm

/-! ## Lemmas about the correction loop and its restore pass -/

theorem applyEntries_setBoneQuat_comm (msin mcos : Rat → Rat) :
    ∀ (es : List (String × Rat)) (bs : List Bone) (n : String) (q : Quat),
      n ∉ es.map Prod.fst →
      applyEntries msin mcos es (setBoneQuat bs n q) =
        ⟨setBoneQuat (applyEntries msin mcos es bs).bones n q,
         (applyEntries msin mcos es bs).originals,
         (applyEntries msin mcos es bs).warnings⟩
  | [], bs, n, q, _ => rfl
  | (m, a) :: rest, bs, n, q, hnotin => by
    have hnm : n ≠ m := by
      intro h
      exact hnotin (by simp [h])
    have hrest : n ∉ rest.map Prod.fst := by
      intro h
      exact hnotin (by simp [h])
    have hfind : findBoneByName (setBoneQuat bs n q) m = findBoneByName bs m :=
      findBoneByName_setBoneQuat_ne bs m n q (Ne.symm hnm)
    rcases hm : findBoneByName bs m with _ | b
    · simp only [applyEntries, hfind, hm]
      rw [applyEntries_setBoneQuat_comm msin mcos rest bs n q hrest]
    · simp only [applyEntries, hfind, hm]
      rw [← setBoneQuat_comm bs n m q
          (qmul (setFromAxisAngle msin mcos 0 0 1 a) b.quaternion) hnm,
        applyEntries_setBoneQuat_comm msin mcos rest
          (setBoneQuat bs m (qmul (setFromAxisAngle msin mcos 0 0 1 a) b.quaternion)) n q hrest]

theorem applyEntries_find_untouched (msin mcos : Rat → Rat) :
    ∀ (es : List (String × Rat)) (bs : List Bone) (n : String),
      n ∉ es.map Prod.fst →
      findBoneByName (applyEntries msin mcos es bs).bones n = findBoneByName bs n
  | [], _, _, _ => rfl
  | (m, a) :: rest, bs, n, hnotin => by
    have hnm : n ≠ m := by
      intro h
      exact hnotin (by simp [h])
    have hrest : n ∉ rest.map Prod.fst := by
      intro h
      exact hnotin (by simp [h])
    rcases hm : findBoneByName bs m with _ | b
    · simp only [applyEntries, hm]
      exact applyEntries_find_untouched msin mcos rest bs n hrest
    · simp only [applyEntries, hm]
      rw [applyEntries_find_untouched msin mcos rest _ n hrest]
      exact findBoneByName_setBoneQuat_ne bs n m _ hnm

theorem applyEntries_roundtrip (msin mcos : Rat → Rat) :
    ∀ (es : List (String × Rat)) (bs : List Bone), (es.map Prod.fst).Nodup →
      restoreAPose (applyEntries msin mcos es bs).bones
        (applyEntries msin mcos es bs).originals = bs
  | [], bs, _ => rfl
  | (n, a) :: rest, bs, hnd => by
    have hnd' : (n :: rest.map Prod.fst).Nodup := by
      simpa using hnd
    have hnotin : n ∉ rest.map Prod.fst := (List.nodup_cons.mp hnd').1
    have hndrest : (rest.map Prod.fst).Nodup := (List.nodup_cons.mp hnd').2
    rcases hfind : findBoneByName bs n with _ | b
    · simp only [applyEntries, hfind]
      exact applyEntries_roundtrip msin mcos rest bs hndrest
    · simp only [applyEntries, hfind]
      have hcomm := applyEntries_setBoneQuat_comm msin mcos rest bs n
        (qmul (setFromAxisAngle msin mcos 0 0 1 a) b.quaternion) hnotin
      rw [hcomm]
      show restoreAPose _ ((n, b.quaternion) :: (applyEntries msin mcos rest bs).originals) = bs
      rw [restoreAPose, List.foldl_cons]
      have hfind2 : (findBoneByName
          (setBoneQuat (applyEntries msin mcos rest bs).bones n
            (qmul (setFromAxisAngle msin mcos 0 0 1 a) b.quaternion)) n).isSome = true := by
        rw [findBoneByName_isSome_setBoneQuat,
          applyEntries_find_untouched msin mcos rest bs n hnotin, hfind]
        rfl
      rw [if_pos hfind2, setBoneQuat_override]
      have hself : setBoneQuat bs n b.quaternion = bs := setBoneQuat_self bs n b hfind
      have hcomm2 := applyEntries_setBoneQuat_comm msin mcos rest bs n b.quaternion hnotin
      rw [hself] at hcomm2
      have hbones : setBoneQuat (applyEntries msin mcos rest bs).bones n b.quaternion =
          (applyEntries msin mcos rest bs).bones := (congrArg TPoseResult.bones hcomm2).symm
      rw [hbones]
      exact applyEntries_roundtrip msin mcos rest bs hndrest

theorem applyEntries_found_result (msin mcos : Rat → Rat) :
    ∀ (es : List (String × Rat)) (bs : List Bone) (name : String) (angle : Rat) (b : Bone),
      (es.map Prod.fst).Nodup → (name, angle) ∈ es → findBoneByName bs name = some b →
      findBoneByName (applyEntries msin mcos es bs).bones name =
        some ⟨b.name, qmul (setFromAxisAngle msin mcos 0 0 1 angle) b.quaternion⟩
  | [], _, _, _, _, _, hmem, _ => absurd hmem (by simp)
  | (n, a) :: rest, bs, name, angle, b, hnd, hmem, hfind => by
    have hnd' : (n :: rest.map Prod.fst).Nodup := by
      simpa using hnd
    have hnotin : n ∉ rest.map Prod.fst := (List.nodup_cons.mp hnd').1
    have hndrest : (rest.map Prod.fst).Nodup := (List.nodup_cons.mp hnd').2
    rcases List.mem_cons.mp hmem with hhead | htail
    · have hn : n = name := (Prod.mk.injEq _ _ _ _ ▸ hhead.symm).1
      have ha : a = angle := (Prod.mk.injEq _ _ _ _ ▸ hhead.symm).2
      subst hn
      subst ha
      simp only [applyEntries, hfind]
      rw [applyEntries_find_untouched msin mcos rest _ n hnotin,
        findBoneByName_setBoneQuat_eq bs n _, hfind]
      rfl
    · have hname_rest : name ∈ rest.map Prod.fst :=
        List.mem_map.mpr ⟨(name, angle), htail, rfl⟩
      have hne : name ≠ n := by
        intro h
        rw [h] at hname_rest
        exact hnotin hname_rest
      rcases hm : findBoneByName bs n with _ | b0
      · simp only [applyEntries, hm]
        exact applyEntries_found_result msin mcos rest bs name angle b hndrest htail hfind
      · simp only [applyEntries, hm]
        have hfind2 : findBoneByName
            (setBoneQuat bs n (qmul (setFromAxisAngle msin mcos 0 0 1 a) b0.quaternion)) name =
            some b := by
          rw [findBoneByName_setBoneQuat_ne bs name n _ hne]
          exact hfind
        exact applyEntries_found_result msin mcos rest _ name angle b hndrest htail hfind2

theorem applyEntries_warning (msin mcos : Rat → Rat) :
    ∀ (es : List (String × Rat)) (bs : List Bone) (name : String) (angle : Rat),
      (name, angle) ∈ es → findBoneByName bs name = none →
      name ∈ (applyEntries msin mcos es bs).warnings
  | [], _, _, _, hmem, _ => absurd hmem (by simp)
  | (n, a) :: rest, bs, name, angle, hmem, hfind => by
    rcases List.mem_cons.mp hmem with hhead | htail
    · have hn : n = name := (Prod.mk.injEq _ _ _ _ ▸ hhead.symm).1
      subst hn
      simp only [applyEntries, hfind]
      exact List.mem_cons_self n _
    · rcases hm : findBoneByName bs n with _ | b0
      · simp only [applyEntries, hm]
        exact List.mem_cons_of_mem n
          (applyEntries_warning msin mcos rest bs name angle htail hfind)
      · have hne : name ≠ n := by
          intro h
          rw [h, hm] at hfind
          exact absurd hfind (by simp)
        simp only [applyEntries, hm]
        have hfind2 : findBoneByName
            (setBoneQuat bs n (qmul (setFromAxisAngle msin mcos 0 0 1 a) b0.quaternion)) name =
            none := by
          rw [findBoneByName_setBoneQuat_ne bs name n _ hne]
          exact hfind
        exact applyEntries_warning msin mcos rest _ name angle htail hfind2

theorem applyEntries_originals_keys (msin mcos : Rat → Rat) :
    ∀ (es : List (String × Rat)) (bs : List Bone),
      (applyEntries msin mcos es bs).originals.map Prod.fst =
        (es.map Prod.fst).filter (fun n => (findBoneByName bs n).isSome)
  | [], _ => rfl
  | (n, a) :: rest, bs => by
    rcases hm : findBoneByName bs n with _ | b0
    · simp only [applyEntries, hm, List.map_cons, List.filter_cons]
      rw [applyEntries_originals_keys msin mcos rest bs]
      have h0 : (findBoneByName bs n).isSome = false := by rw [hm]; rfl
      simp [h0]
    · simp only [applyEntries, hm, List.map_cons, List.filter_cons]
      rw [applyEntries_originals_keys msin mcos rest _]
      have h0 : (findBoneByName bs n).isSome = true := by rw [hm]; rfl
      have hcongr : (rest.map Prod.fst).filter
          (fun x => (findBoneByName
            (setBoneQuat bs n (qmul (setFromAxisAngle msin mcos 0 0 1 a) b0.quaternion))
            x).isSome) =
          (rest.map Prod.fst).filter (fun x => (findBoneByName bs x).isSome) :=
        List.filter_congr (fun x _ => by rw [findBoneByName_isSome_setBoneQuat])
      simp [h0, hcongr]

theorem restoreAPose_getElem_untouched :
    ∀ (delta : List (String × Quat)) (bs : List Bone) (i : Nat) (b : Bone),
      bs[i]? = some b → b.name ∉ delta.map Prod.fst →
      (restoreAPose bs delta)[i]? = some b
  | [], _, _, _, h, _ => h
  | (m, v) :: rest, bs, i, b, h, hname => by
    have hbm : b.name ≠ m := by
      intro heq
      exact hname (by simp [heq])
    have hrest : b.name ∉ rest.map Prod.fst := by
      intro hmem
      exact hname (by simp [hmem])
    rw [restoreAPose, List.foldl_cons]
    by_cases hf : (findBoneByName bs m).isSome = true
    · rw [if_pos hf]
      exact restoreAPose_getElem_untouched rest _ i b
        (setBoneQuat_getElem_ne bs m v i b h hbm) hrest
    · rw [if_neg hf]
      exact restoreAPose_getElem_untouched rest bs i b h hrest

/-- The names of the four arm-bone entries, in table order. -/
theorem armBones_names (piQ : Rat) :
    (armBones piQ).map Prod.fst =
      ["LeftUpperArm", "RightUpperArm", "LeftShoulder", "RightShoulder"] := rfl

/-- The four arm-bone names are pairwise distinct. -/
theorem armBones_names_nodup (piQ : Rat) : ((armBones piQ).map Prod.fst).Nodup := by
  rw [armBones_names]
  decide

/-! ## C4: rest-pose round trip -/

/-- C4: applying `applyTPoseCorrection` and then `restoreAPose` with
the returned delta restores the whole skeleton, so every bone's local
rotation equals its pre-correction value exactly. -/
theorem tpose_roundtrip_restores_rotations (msin mcos : Rat → Rat) (piQ : Rat)
    (bones : List Bone) :
    restoreAPose (applyTPoseCorrection msin mcos piQ bones).bones
      (applyTPoseCorrection msin mcos piQ bones).originals = bones :=
  applyEntries_roundtrip msin mcos (armBones piQ) bones (armBones_names_nodup piQ)

/-! ## C5: the correction policy -/

/-- C5: for each of the four named arm bones, a found bone receives the
correction as a pre-multiplication onto its existing local rotation;
the correction rotates about the local Z axis (its X and Y components
vanish); right-side angles mirror left-side ones and shoulder angles
are 0.3 times the upper-arm angle; and a named bone missing from the
skeleton is merely recorded as a warning, with no error. -/
theorem applyTPoseCorrection_spec
    (msin mcos : Rat → Rat) (piQ : Rat) (bones : List Bone) (name : String) (angle : Rat)
    (hmem : (name, angle) ∈ armBones piQ) :
    (∀ b, findBoneByName bones name = some b →
      findBoneByName (applyTPoseCorrection msin mcos piQ bones).bones name =
        some ⟨b.name, qmul (setFromAxisAngle msin mcos 0 0 1 angle) b.quaternion⟩) ∧
    (findBoneByName bones name = none →
      name ∈ (applyTPoseCorrection msin mcos piQ bones).warnings) ∧
    (setFromAxisAngle msin mcos 0 0 1 angle).x = 0 ∧
    (setFromAxisAngle msin mcos 0 0 1 angle).y = 0 ∧
    (∀ a, alist (armBones piQ) "LeftUpperArm" = some a →
      alist (armBones piQ) "RightUpperArm" = some (-a) ∧
      alist (armBones piQ) "LeftShoulder" = some (a * 0.3) ∧
      alist (armBones piQ) "RightShoulder" = some (-a * 0.3)) := by
  refine ⟨?_, ?_, by simp [setFromAxisAngle], by simp [setFromAxisAngle], ?_⟩
  · intro b hfind
    exact applyEntries_found_result msin mcos (armBones piQ) bones name angle b
      (armBones_names_nodup piQ) hmem hfind
  · intro hfind
    exact applyEntries_warning msin mcos (armBones piQ) bones name angle hmem hfind
  · intro a ha
    have : APOSE_TO_TPOSE_OFFSET piQ = a := by
      have h1 : alist (armBones piQ) "LeftUpperArm" = some (APOSE_TO_TPOSE_OFFSET piQ) := by
        simp [armBones, alist]
      rw [h1] at ha
      exact Option.some.inj ha
    rw [← this]
    refine ⟨by simp [armBones, alist], by simp [armBones, alist], by simp [armBones, alist]⟩

/-- C5 (witness): on a skeleton holding only `LeftUpperArm`, that bone
is pre-multiplied by the upper-arm correction and the missing
`RightUpperArm` produces a warning. -/
theorem applyTPoseCorrection_spec_witness :
    findBoneByName (applyTPoseCorrection (fun _ => 1) (fun _ => 0) 180
        [⟨"LeftUpperArm", ⟨1, 2, 3, 4⟩⟩]).bones "LeftUpperArm" =
      some ⟨"LeftUpperArm", qmul (setFromAxisAngle (fun _ => 1) (fun _ => 0) 0 0 1
        (APOSE_TO_TPOSE_OFFSET 180)) ⟨1, 2, 3, 4⟩⟩ ∧
    "RightUpperArm" ∈ (applyTPoseCorrection (fun _ => 1) (fun _ => 0) 180
        [⟨"LeftUpperArm", ⟨1, 2, 3, 4⟩⟩]).warnings :=
  ⟨(applyTPoseCorrection_spec (fun _ => 1) (fun _ => 0) 180 [⟨"LeftUpperArm", ⟨1, 2, 3, 4⟩⟩]
      "LeftUpperArm" (APOSE_TO_TPOSE_OFFSET 180) (by simp [armBones])).1
      ⟨"LeftUpperArm", ⟨1, 2, 3, 4⟩⟩ (by decide),
   (applyTPoseCorrection_spec (fun _ => 1) (fun _ => 0) 180 [⟨"LeftUpperArm", ⟨1, 2, 3, 4⟩⟩]
      "RightUpperArm" (-APOSE_TO_TPOSE_OFFSET 180) (by simp [armBones])).2.1 (by decide)⟩

/-! ## C10: the frame of restoreAPose and the delta domain -/

/-- C10: `restoreAPose` leaves every bone whose name is not a key of
the delta untouched (stated per position in the bones list), and the
delta produced by `applyTPoseCorrection` has entries exactly for those
of the four named arm bones actually found in the skeleton. -/
theorem restoreAPose_frame_spec
    (msin mcos : Rat → Rat) (piQ : Rat) (bones : List Bone)
    (delta : List (String × Quat)) (i : Nat) (b : Bone)
    (hib : bones[i]? = some b) (hname : b.name ∉ delta.map Prod.fst) :
    (restoreAPose bones delta)[i]? = some b ∧
    (applyTPoseCorrection msin mcos piQ bones).originals.map Prod.fst =
      ((armBones piQ).map Prod.fst).filter (fun n => (findBoneByName bones n).isSome) :=
  ⟨restoreAPose_getElem_untouched delta bones i b hib hname,
   applyEntries_originals_keys msin mcos (armBones piQ) bones⟩

/-- C10 (witness): a `Hips`-only skeleton is untouched by a delta that
names a different bone, and its correction delta is empty. -/
theorem restoreAPose_frame_spec_witness :
    (restoreAPose [⟨"Hips", ⟨0, 0, 0, 1⟩⟩] [("X", qidentity)])[0]? =
      some ⟨"Hips", ⟨0, 0, 0, 1⟩⟩ ∧
    (applyTPoseCorrection (fun _ => 1) (fun _ => 0) 0 [⟨"Hips", ⟨0, 0, 0, 1⟩⟩]).originals.map
      Prod.fst = ((armBones 0).map Prod.fst).filter
        (fun n => (findBoneByName [⟨"Hips", ⟨0, 0, 0, 1⟩⟩] n).isSome) :=
  restoreAPose_frame_spec (fun _ => 1) (fun _ => 0) 0 [⟨"Hips", ⟨0, 0, 0, 1⟩⟩]
    [("X", qidentity)] 0 ⟨"Hips", ⟨0, 0, 0, 1⟩⟩ (by decide) (by decide)
